import Mathlib

/-!
Shallow embedding of the `pmd_sir0` crate (src/sir0.rs): the SIR0 container
parser `Sir0::new`, its pointer-table decoding loop, and the footer encoder
`write_sir0_footer`.  Files are modelled as lists of bytes (`List Nat`, each
element `< 256`); u32/u64 machine arithmetic is modelled on `Nat` with
explicit `% 2 ^ 64` where the Rust code wraps, and explicit branches where
the Rust code uses `checked_*` operations.  Fallible Rust paths return
`Except`; the one raw (potentially panicking) arithmetic operation in the
encoder (`value_to_write + 0b1000_0000` on `u8`) is modelled through
`Option`, `none` standing for a panic.
-/

/-- Errors of `Sir0::new`, mirroring `enum Sir0Error` in src/sir0.rs.
`IOError` stands for any propagated transport error (the Rust variant wraps
the underlying `std::io::Error`; the payload is irrelevant to the claims).
`CloneHeaderError` likewise drops its wrapped IO error. -/
inductive Sir0Error where
  | IOError : Sir0Error
  | InvalidMagic : List Nat → Sir0Error
  | CreatePartitionError : Sir0Error
  | CloneHeaderError : Sir0Error
  | PointerBeforeHeader : Nat → Nat → Sir0Error
  | PointerOffsetPostOrAtFileEnd : Nat → Nat → Sir0Error
  | AbsolutePointerOverflow : Nat → Nat → Sir0Error
deriving Repr, DecidableEq

/-- Errors of `write_sir0_footer`, mirroring `enum Sir0WriteFooterError`. -/
inductive Sir0WriteFooterError where
  | IOError : Sir0WriteFooterError
  | NotSorted : Nat → Nat → Sir0WriteFooterError
deriving Repr, DecidableEq

instance {ε α : Type} [DecidableEq ε] [DecidableEq α] : DecidableEq (Except ε α)
  | Except.error e, Except.error f =>
    if h : e = f then Decidable.isTrue (by rw [h])
    else Decidable.isFalse (by intro hh; cases hh; exact h rfl)
  | Except.error _, Except.ok _ => Decidable.isFalse (fun h => Except.noConfusion h)
  | Except.ok _, Except.error _ => Decidable.isFalse (fun h => Except.noConfusion h)
  | Except.ok x, Except.ok y =>
    if h : x = y then Decidable.isTrue (by rw [h])
    else Decidable.isFalse (by intro hh; cases hh; exact h rfl)

/-- The modulus `2 ^ 64` of the Rust `u64` arithmetic. -/
def U64 : Nat := 2 ^ 64

/-- The running state of the decoding loop in `Sir0::new`
(`is_constructing`, `constructed_pointer`, `absolute_position`,
`absolute_pointers`). -/
structure DecState where
  constructing : Bool
  acc : Nat
  pos : Nat
  out : List Nat
deriving Repr, DecidableEq

/-- The fold `constructed_pointer.overflowing_shl(7).0 | ((current & 0x7F) as u64)`:
a wrapping 7-bit left shift of the `u64` accumulator, or-ed with the low
7 bits of the byte read. -/
def foldPtr (acc b : Nat) : Nat :=
  Nat.lor ((acc <<< 7) % U64) (Nat.land b 127)

/-- The `for _ in 0..remaining_bytes` decoding loop of `Sir0::new`
(src/sir0.rs lines 82–119).  The first argument is the loop bound
(`remaining_bytes`), the second the bytes of the file from the current
stream position (so `read_u8` past their end is an IO error).  Returns the
loop's outcome together with the number of bytes actually read. -/
def decodeCore : Nat → List Nat → DecState → Except Sir0Error (List Nat) × Nat
  | 0, _, st => (Except.ok st.out, 0)
  | _ + 1, [], _ => (Except.error Sir0Error.IOError, 0)
  | n + 1, b :: rest, st =>
    if 128 ≤ b then
      -- `current >= 128`: set `is_constructing`, fold the low 7 bits
      let r := decodeCore n rest { st with constructing := true, acc := foldPtr st.acc b }
      (r.1, r.2 + 1)
    else if st.constructing then
      -- high bit clear while constructing: final byte of a group
      let p := foldPtr st.acc b
      if st.pos + p < U64 then
        let r := decodeCore n rest ⟨false, 0, st.pos + p, st.out ++ [st.pos + p]⟩
        (r.1, r.2 + 1)
      else
        (Except.error (Sir0Error.AbsolutePointerOverflow st.pos p), 1)
    else if b = 0 then
      -- standalone zero byte: table terminator, `break`
      (Except.ok st.out, 1)
    else
      -- standalone byte 1..=127: one-byte delta, added as `current as u64`
      if st.pos + b < U64 then
        let r := decodeCore n rest ⟨false, 0, st.pos + b, st.out ++ [st.pos + b]⟩
        (r.1, r.2 + 1)
      else
        (Except.error (Sir0Error.AbsolutePointerOverflow st.pos b), 1)

/-- The loop state at the start of the decoding loop. -/
def initState : DecState := ⟨false, 0, 0, []⟩

/-- The parsed container (`struct Sir0`); the retained stream handle is not
modelled (the whole input is the `data` list). -/
structure Sir0 where
  offsets : List Nat
  header : List Nat
deriving Repr, DecidableEq

/-- The 4 magic bytes `[b'S', b'I', b'R', b'0']`. -/
def magicBytes : List Nat := [83, 73, 82, 48]

/-- The `read_u32::<LE>` read at byte offset `i` of the file: 4 little-endian bytes,
`none` when the file ends before 4 bytes could be read. -/
def readU32LE (data : List Nat) (i : Nat) : Option Nat :=
  if i + 4 ≤ data.length then
    some (data.getD i 0 + data.getD (i + 1) 0 * 256 +
      data.getD (i + 2) 0 * 65536 + data.getD (i + 3) 0 * 16777216)
  else none

/-- Modelled from the spec: the external range-read collaborator
`(stream, start_offset, length) -> owned byte buffer | IO error`
(`io_partition::clone_into_vec`, not part of this repository).  It returns
the bytes `[start, start + len)` when they lie inside the stream and an IO
error otherwise. -/
def clone_into_vec (data : List Nat) (start len : Nat) : Option (List Nat) :=
  if start + len ≤ data.length then some ((data.drop start).take len) else none

/-- The parser `Sir0::new` (src/sir0.rs lines 37–126) over a byte list standing for the
seekable stream (a `Cursor`, as in the fuzz target): magic check, the two
little-endian u32 header fields, `checked_sub` for the header length, the
header clone, the `remaining_bytes` computation
(`file_lenght.checked_sub(pointer_offset).checked_sub(1)`), then the
decoding loop over the bytes from `pointer_offset`. -/
def sir0_new (data : List Nat) : Except Sir0Error Sir0 :=
  if data.length < 4 then Except.error Sir0Error.IOError
  else if data.take 4 ≠ magicBytes then Except.error (Sir0Error.InvalidMagic (data.take 4))
  else
    match readU32LE data 4, readU32LE data 8 with
    | some header_offset, some pointer_offset =>
      if pointer_offset < header_offset then
        Except.error (Sir0Error.PointerBeforeHeader header_offset pointer_offset)
      else
        match clone_into_vec data header_offset (pointer_offset - header_offset) with
        | none => Except.error Sir0Error.CloneHeaderError
        | some header =>
          if pointer_offset + 1 ≤ data.length then
            match (decodeCore (data.length - pointer_offset - 1)
                (data.drop pointer_offset) initState).1 with
            | Except.error e => Except.error e
            | Except.ok offs => Except.ok ⟨offs, header⟩
          else
            Except.error (Sir0Error.PointerOffsetPostOrAtFileEnd pointer_offset data.length)
    | _, _ => Except.error Sir0Error.IOError

/-- Checked `u8` addition: `none` models the overflow panic of a raw `+`
on `u8` values. -/
def u8_add (a b : Nat) : Option Nat :=
  if a + b < 256 then some (a + b) else none

/-- Fuel-based implementation of the digit loop of `write_sir0_footer`
(structural recursion so that the kernel can evaluate it; the fuel `d`
itself always suffices, see `toDigits128_eq`). -/
def toDigits128Aux : Nat → Nat → List Nat
  | 0, d => [d % 128]
  | fuel + 1, d => if d < 128 then [d] else d % 128 :: toDigits128Aux fuel (d / 128)

/-- The digit loop of `write_sir0_footer`: repeatedly push
`remaining_to_write % 128` and shift right by 7 (`>>= 7`, i.e. `/ 128`)
while the value is `≥ 128`, then push the final value.  Produces
`reversed_to_write`, the base-128 digits least-significant first. -/
def toDigits128 (d : Nat) : List Nat := toDigits128Aux d d

/-- The emission loop `for (counter, value) in
reversed_to_write.iter().cloned().enumerate().rev()`: it walks the digits
most-significant first (so it is applied to `reversed_to_write.reverse`),
adding `0b1000_0000` (raw `u8` addition, a panic on overflow, hence
`u8_add`) to every digit except the one with `counter == 0`, which is the
least-significant digit and the last one processed. -/
def emitList : List Nat → Option (List Nat)
  | [] => some []
  | [v] => some [v]
  | v :: w :: rest => do
    let b ← u8_add v 128
    let r ← emitList (w :: rest)
    pure (b :: r)

/-- The per-element loop of `write_sir0_footer`, with `latest` the
`latest_written_pointer` accumulator.  `none` models a panic; otherwise the
result is the typed error or the emitted bytes. -/
def write_sir0_footer_go (latest : Nat) :
    List Nat → Option (Except Sir0WriteFooterError (List Nat))
  | [] => some (Except.ok [])
  | p :: rest =>
    if p < latest then
      -- `original_to_write.checked_sub(latest_written_pointer)` underflow
      some (Except.error (Sir0WriteFooterError.NotSorted p latest))
    else
      let d := p - latest
      if d = 0 then write_sir0_footer_go p rest
      else
        match emitList (toDigits128 d).reverse with
        | none => none
        | some g =>
          match write_sir0_footer_go p rest with
          | none => none
          | some (Except.error e) => some (Except.error e)
          | some (Except.ok bs) => some (Except.ok (g ++ bs))

/-- The encoder `write_sir0_footer` (src/sir0.rs lines 175–217) with the written bytes
collected into a list (the sink is a `Cursor`/`Vec`, whose writes do not
fail); `none` models a panic of the raw `u8` addition. -/
def write_sir0_footer (list : List Nat) :
    Option (Except Sir0WriteFooterError (List Nat)) :=
  write_sir0_footer_go 0 list

/-- The bytes of a multi-byte group that carry the continuation bit:
all the digits of `m`, most-significant first, each with `0x80` added. -/
def contBytes (m : Nat) : List Nat := (toDigits128 m).reverse.map (· + 128)

/-- The bytes emitted for one delta `d`: its digits most-significant
first, the continuation bit on every byte except the last. -/
def groupBytes (d : Nat) : List Nat :=
  if d < 128 then [d] else contBytes (d / 128) ++ [d % 128]

/-- Discriminator: is the outcome the magic-rejection error? -/
def resultIsInvalidMagic : Except Sir0Error Sir0 → Bool
  | Except.error (Sir0Error.InvalidMagic _) => true
  | _ => false

/-! ## Supporting lemmas -/

theorem toDigits128Aux_congr : ∀ f₁ f₂ d, d ≤ f₁ → d ≤ f₂ →
    toDigits128Aux f₁ d = toDigits128Aux f₂ d := by
  intro f₁
  induction f₁ with
  | zero =>
    intro f₂ d h₁ _
    interval_cases d
    cases f₂ <;> simp [toDigits128Aux]
  | succ g ih =>
    intro f₂ d h₁ h₂
    cases f₂ with
    | zero =>
      interval_cases d
      simp [toDigits128Aux]
    | succ h =>
      by_cases hd : d < 128
      · simp [toDigits128Aux, hd]
      · have hdiv : d / 128 ≤ g := by omega
        have hdiv' : d / 128 ≤ h := by omega
        simp [toDigits128Aux, hd, ih _ _ hdiv hdiv']

/-- The recursive unfolding of the digit loop. -/
theorem toDigits128_eq (d : Nat) :
    toDigits128 d = if d < 128 then [d] else d % 128 :: toDigits128 (d / 128) := by
  by_cases hd : d < 128
  · cases d with
    | zero => simp [toDigits128, toDigits128Aux, hd]
    | succ g => simp [toDigits128, toDigits128Aux, hd]
  · have h1 : 1 ≤ d := by omega
    obtain ⟨g, rfl⟩ : ∃ g, d = g + 1 := ⟨d - 1, by omega⟩
    have hdiv : (g + 1) / 128 ≤ g := by omega
    simp only [toDigits128, toDigits128Aux, if_neg hd]
    exact congrArg _ (toDigits128Aux_congr g ((g + 1) / 128) ((g + 1) / 128) hdiv le_rfl)

/-- The accumulator fold is, arithmetically, a wrapping multiply-by-128
followed by adding the byte's low 7 bits (the or-ed value has its low
7 bits clear, so the `|` is an addition). -/
theorem foldPtr_eq (a b : Nat) : foldPtr a b = a * 128 % U64 + b % 128 := by
  have h1 : Nat.land b 127 = b % 128 := by
    have h := Nat.and_pow_two_sub_one_eq_mod b 7
    norm_num at h
    exact h
  have h2 : a <<< 7 = a * 128 := by
    rw [Nat.shiftLeft_eq]
  have h3 : a * 128 % U64 = 2 ^ 7 * (a % 2 ^ 57) := by
    have hU : U64 = 2 ^ 57 * 2 ^ 7 := by norm_num [U64]
    have ha : a * 128 = a * 2 ^ 7 := by norm_num
    rw [hU, ha, Nat.mul_mod_mul_right, Nat.mul_comm]
  have h4 : b % 128 < 2 ^ 7 := by
    norm_num
    exact Nat.mod_lt _ (by norm_num)
  have h5 : 2 ^ 7 * (a % 2 ^ 57) + b % 128 = 2 ^ 7 * (a % 2 ^ 57) ||| b % 128 :=
    Nat.mul_add_lt_is_or h4 _
  calc foldPtr a b
      = (a * 128 % U64) ||| (b % 128) := by rw [foldPtr, h1, h2]; rfl
    _ = 2 ^ 7 * (a % 2 ^ 57) ||| b % 128 := by rw [h3]
    _ = 2 ^ 7 * (a % 2 ^ 57) + b % 128 := h5.symm
    _ = a * 128 % U64 + b % 128 := by rw [← h3]

/-- All digits produced by the digit loop are `< 128`. -/
theorem toDigits128_lt : ∀ d, ∀ x ∈ toDigits128 d, x < 128 := by
  intro d
  induction d using Nat.strong_induction_on with
  | _ d ih =>
    intro x hx
    rw [toDigits128_eq] at hx
    by_cases hd : d < 128
    · simp [hd] at hx
      omega
    · simp [hd] at hx
      rcases hx with hx | hx
      · omega
      · exact ih (d / 128) (by omega) x hx

/-- The digit list is never empty. -/
theorem toDigits128_ne_nil (d : Nat) : toDigits128 d ≠ [] := by
  rw [toDigits128_eq]
  by_cases hd : d < 128 <;> simp [hd]

theorem contBytes_small {m : Nat} (hm : m < 128) : contBytes m = [m + 128] := by
  simp [contBytes, toDigits128_eq, hm]

theorem contBytes_large {m : Nat} (hm : ¬ m < 128) :
    contBytes m = contBytes (m / 128) ++ [m % 128 + 128] := by
  conv_lhs => rw [contBytes, toDigits128_eq, if_neg hm]
  simp [contBytes]

theorem contBytes_ne_nil (m : Nat) : contBytes m ≠ [] := by
  simp [contBytes, toDigits128_ne_nil]

theorem contBytes_ge (m : Nat) : ∀ x ∈ contBytes m, 128 ≤ x := by
  intro x hx
  simp only [contBytes, List.mem_map, List.mem_reverse] at hx
  omega

theorem u8_add_eq {a : Nat} (h : a < 128) : u8_add a 128 = some (a + 128) := by
  simp [u8_add]
  omega

/-- The emission loop on a list `l ++ [v]` of digits all `< 128`
(most-significant first): every digit but the last gets the continuation
bit, and the raw `u8` addition never overflows. -/
theorem emitList_append_singleton :
    ∀ (l : List Nat) (v : Nat), (∀ x ∈ l, x < 128) →
    emitList (l ++ [v]) = some (l.map (· + 128) ++ [v]) := by
  intro l
  induction l with
  | nil => intro v _; simp [emitList]
  | cons a l ih =>
    intro v hlt
    obtain ⟨w, rest, hw⟩ : ∃ w rest, l ++ [v] = w :: rest := by
      cases l <;> exact ⟨_, _, rfl⟩
    have ha : a < 128 := hlt a (by simp)
    have hrec := ih v (fun x hx => hlt x (by simp [hx]))
    rw [List.cons_append, hw, emitList, u8_add_eq ha, ← hw, hrec]
    simp

/-- The emission loop applied to the reversed digit list of `d` succeeds
(no `u8` overflow) and produces exactly `groupBytes d`. -/
theorem emitList_toDigits (d : Nat) :
    emitList (toDigits128 d).reverse = some (groupBytes d) := by
  by_cases hd : d < 128
  · rw [toDigits128_eq, if_pos hd]
    simp [emitList, groupBytes, hd]
  · rw [toDigits128_eq, if_neg hd]
    have hlt : ∀ x ∈ (toDigits128 (d / 128)).reverse, x < 128 := by
      intro x hx
      exact toDigits128_lt (d / 128) x (List.mem_reverse.mp hx)
    rw [List.reverse_cons, emitList_append_singleton _ _ hlt]
    simp [groupBytes, hd, contBytes]

/-! ### Step equations of the decoding loop -/

theorem decodeCore_cont {b : Nat} (hb : 128 ≤ b) (n : Nat) (rest : List Nat)
    (st : DecState) :
    decodeCore (n + 1) (b :: rest) st =
      ((decodeCore n rest ⟨true, foldPtr st.acc b, st.pos, st.out⟩).1,
       (decodeCore n rest ⟨true, foldPtr st.acc b, st.pos, st.out⟩).2 + 1) := by
  simp [decodeCore, hb]

theorem decodeCore_group_close {b : Nat} (hb : ¬ 128 ≤ b) {st : DecState}
    (hc : st.constructing = true) (h : st.pos + foldPtr st.acc b < U64)
    (n : Nat) (rest : List Nat) :
    decodeCore (n + 1) (b :: rest) st =
      ((decodeCore n rest
          ⟨false, 0, st.pos + foldPtr st.acc b, st.out ++ [st.pos + foldPtr st.acc b]⟩).1,
       (decodeCore n rest
          ⟨false, 0, st.pos + foldPtr st.acc b, st.out ++ [st.pos + foldPtr st.acc b]⟩).2 + 1) := by
  simp [decodeCore, hb, hc, h]

theorem decodeCore_break {st : DecState} (hc : st.constructing = false)
    (n : Nat) (rest : List Nat) :
    decodeCore (n + 1) (0 :: rest) st = (Except.ok st.out, 1) := by
  simp [decodeCore, hc]

theorem decodeCore_single {b : Nat} (hb : ¬ 128 ≤ b) (hb0 : b ≠ 0) {st : DecState}
    (hc : st.constructing = false) (h : st.pos + b < U64)
    (n : Nat) (rest : List Nat) :
    decodeCore (n + 1) (b :: rest) st =
      ((decodeCore n rest ⟨false, 0, st.pos + b, st.out ++ [st.pos + b]⟩).1,
       (decodeCore n rest ⟨false, 0, st.pos + b, st.out ++ [st.pos + b]⟩).2 + 1) := by
  simp [decodeCore, hb, hc, hb0, h]

/-! ### Decoding one emitted group -/

/-- Feeding the continuation-marked digits of `m` (most-significant first)
to the decoding loop from a clean accumulator leaves the loop mid-group
with the accumulator holding exactly `m` (no wraparound occurs because the
running value never exceeds `m`). -/
theorem decode_contBytes :
    ∀ m, 1 ≤ m → m < U64 → ∀ (st : DecState), st.acc = 0 →
    ∀ (fuel : Nat) (rest : List Nat),
    decodeCore ((contBytes m).length + fuel) (contBytes m ++ rest) st =
      ((decodeCore fuel rest ⟨true, m, st.pos, st.out⟩).1,
       (decodeCore fuel rest ⟨true, m, st.pos, st.out⟩).2 + (contBytes m).length) := by
  intro m
  induction m using Nat.strong_induction_on with
  | _ m ih =>
    intro h1 h2 st ha fuel rest
    by_cases hm : m < 128
    · rw [contBytes_small hm]
      have hfold : foldPtr st.acc (m + 128) = m := by
        rw [foldPtr_eq, ha]
        simp
        omega
      simp only [List.length_singleton, List.singleton_append]
      rw [Nat.add_comm 1 fuel, decodeCore_cont (by omega) fuel rest st, hfold]
    · rw [contBytes_large hm]
      have hm' : 1 ≤ m / 128 := by omega
      have hm2 : m / 128 < U64 := lt_of_le_of_lt (Nat.div_le_self m 128) h2
      have hfold2 : foldPtr (m / 128) (m % 128 + 128) = m := by
        rw [foldPtr_eq]
        have hle : m / 128 * 128 % U64 = m / 128 * 128 :=
          Nat.mod_eq_of_lt (lt_of_le_of_lt (Nat.div_mul_le_self m 128) h2)
        rw [hle]
        omega
      rw [List.append_assoc, List.singleton_append, List.length_append,
        List.length_singleton, Nat.add_assoc,
        ih (m / 128) (by omega) hm' hm2 st ha (1 + fuel) ((m % 128 + 128) :: rest),
        Nat.add_comm 1 fuel,
        decodeCore_cont (by omega) fuel rest ⟨true, m / 128, st.pos, st.out⟩]
      simp only [hfold2, Prod.mk.injEq]
      exact ⟨trivial, by omega⟩

/-- Feeding the bytes emitted for one delta `d` to the decoding loop in
its between-groups state advances the absolute position by `d` and appends
the new position to the output; exactly the group's bytes are consumed. -/
theorem decode_groupBytes (d : Nat) (h1 : 1 ≤ d) (h2 : d < U64) (st : DecState)
    (hc : st.constructing = false) (ha : st.acc = 0) (hpos : st.pos + d < U64)
    (fuel : Nat) (rest : List Nat) :
    decodeCore ((groupBytes d).length + fuel) (groupBytes d ++ rest) st =
      ((decodeCore fuel rest ⟨false, 0, st.pos + d, st.out ++ [st.pos + d]⟩).1,
       (decodeCore fuel rest ⟨false, 0, st.pos + d, st.out ++ [st.pos + d]⟩).2 +
         (groupBytes d).length) := by
  by_cases hd : d < 128
  · rw [groupBytes, if_pos hd]
    simp only [List.length_singleton, List.singleton_append]
    rw [Nat.add_comm 1 fuel, decodeCore_single (by omega) (by omega) hc hpos fuel rest]
  · rw [groupBytes, if_neg hd]
    have hm' : 1 ≤ d / 128 := by omega
    have hm2 : d / 128 < U64 := lt_of_le_of_lt (Nat.div_le_self d 128) h2
    have hfold2 : foldPtr (d / 128) (d % 128) = d := by
      rw [foldPtr_eq]
      have hle : d / 128 * 128 % U64 = d / 128 * 128 :=
        Nat.mod_eq_of_lt (lt_of_le_of_lt (Nat.div_mul_le_self d 128) h2)
      rw [hle]
      omega
    rw [List.append_assoc, List.singleton_append, List.length_append,
      List.length_singleton, Nat.add_assoc,
      decode_contBytes (d / 128) hm' hm2 st ha (1 + fuel) (d % 128 :: rest),
      Nat.add_comm 1 fuel,
      decodeCore_group_close (b := d % 128) (by omega) rfl
        (by simpa only [hfold2] using hpos) fuel rest]
    simp only [hfold2, Prod.mk.injEq]
    exact ⟨trivial, by omega⟩

/-! ### Round trip -/

/-- The encoder/decoder round trip, generalised over the running encoder
accumulator `latest` and a decoder state whose absolute position agrees
with it. -/
theorem footer_roundtrip_go :
    ∀ (S : List Nat) (latest : Nat) (st : DecState),
    (∀ p ∈ S, p < 2 ^ 32) → List.Chain (· < ·) latest S → latest < 2 ^ 32 →
    st.constructing = false → st.acc = 0 → st.pos = latest →
    ∃ B, write_sir0_footer_go latest S = some (Except.ok B) ∧
      decodeCore B.length B st = (Except.ok (st.out ++ S), B.length) := by
  intro S
  induction S with
  | nil =>
    intro latest st _ _ _ _ _ _
    exact ⟨[], rfl, by simp [decodeCore]⟩
  | cons p S ih =>
    intro latest st hbound hchain hlat hc ha hpos
    rw [List.chain_cons] at hchain
    obtain ⟨hlp, hchain'⟩ := hchain
    have hp32 : p < 2 ^ 32 := hbound p (by simp)
    have hU : (2 : Nat) ^ 32 < U64 := by norm_num [U64]
    have hd1 : 1 ≤ p - latest := by omega
    have hnlt : ¬ p < latest := by omega
    have hplat : st.pos + (p - latest) = p := by omega
    obtain ⟨B', hB', hdec'⟩ := ih p ⟨false, 0, p, st.out ++ [p]⟩
      (fun q hq => hbound q (by simp [hq])) hchain' hp32 rfl rfl rfl
    refine ⟨groupBytes (p - latest) ++ B', ?_, ?_⟩
    · rw [write_sir0_footer_go, if_neg hnlt]
      simp only [if_neg (by omega : ¬ (p - latest = 0))]
      rw [emitList_toDigits, hB']
    · rw [List.length_append,
        decode_groupBytes (p - latest) hd1 (by omega) st hc ha
          (by omega) B'.length B', hplat, hdec']
      simp only [Prod.mk.injEq]
      constructor
      · simp
      · omega

/-- C1: for every *strictly increasing* sequence of positive `u32`
positions, encoding with `write_sir0_footer` and then decoding the whole
emitted byte run (decode budget = its length, no terminator) reproduces the
sequence exactly.  (The claim's broader "non-decreasing" version is refuted
by `footer_roundtrip_fails_on_plateau`: a zero delta emits nothing.) -/
theorem footer_decode_roundtrip_strict (S : List Nat)
    (hbound : ∀ p ∈ S, p < 2 ^ 32) (hmono : List.Chain (· < ·) 0 S) :
    ∃ B, write_sir0_footer S = some (Except.ok B) ∧
      (decodeCore B.length B initState).1 = Except.ok S := by
  obtain ⟨B, h1, h2⟩ := footer_roundtrip_go S 0 initState hbound hmono (by norm_num)
    rfl rfl rfl
  refine ⟨B, h1, ?_⟩
  rw [h2]
  simp [initState]

/-- C1 counterexample: `[4, 4]` is non-decreasing, but its encoding is the
single byte `0x04`, which decodes to `[4]`, not `[4, 4]` — the zero delta
of the repeated position is silently dropped by the encoder. -/
theorem footer_roundtrip_fails_on_plateau :
    write_sir0_footer [4, 4] = some (Except.ok [4]) ∧
    (decodeCore 1 [4] initState).1 = Except.ok [4] ∧
    ([4] : List Nat) ≠ [4, 4] := by decide

/-- C1 witness: the round trip at the concrete sequence `[4, 8, 300]`. -/
theorem footer_decode_roundtrip_strict_witness :
    (∀ p ∈ ([4, 8, 300] : List Nat), p < 2 ^ 32) ∧
    List.Chain (· < ·) 0 [4, 8, 300] ∧
    ∃ B, write_sir0_footer [4, 8, 300] = some (Except.ok B) ∧
      (decodeCore B.length B initState).1 = Except.ok [4, 8, 300] :=
  ⟨by decide, by norm_num [List.chain_cons],
    footer_decode_roundtrip_strict [4, 8, 300] (by decide)
      (by norm_num [List.chain_cons])⟩

theorem decodeCore_group_overflow {b : Nat} (hb : ¬ 128 ≤ b) {st : DecState}
    (hc : st.constructing = true) (h : ¬ st.pos + foldPtr st.acc b < U64)
    (n : Nat) (rest : List Nat) :
    decodeCore (n + 1) (b :: rest) st =
      (Except.error (Sir0Error.AbsolutePointerOverflow st.pos (foldPtr st.acc b)), 1) := by
  simp [decodeCore, hb, hc, h]

theorem decodeCore_single_overflow {b : Nat} (hb : ¬ 128 ≤ b) (hb0 : b ≠ 0)
    {st : DecState} (hc : st.constructing = false) (h : ¬ st.pos + b < U64)
    (n : Nat) (rest : List Nat) :
    decodeCore (n + 1) (b :: rest) st =
      (Except.error (Sir0Error.AbsolutePointerOverflow st.pos b), 1) := by
  simp [decodeCore, hb, hc, hb0, h]

/-- The only errors the decoding loop can produce are a transport error
(`read_u8` past end of stream) and the checked-addition overflow: in
particular no error is ever raised for the (wrapping) accumulator shift. -/
theorem decodeCore_error_shape :
    ∀ (fuel : Nat) (bytes : List Nat) (st : DecState) (e : Sir0Error),
    (decodeCore fuel bytes st).1 = Except.error e →
    e = Sir0Error.IOError ∨ ∃ p d, e = Sir0Error.AbsolutePointerOverflow p d := by
  intro fuel
  induction fuel with
  | zero => intro bytes st e h; simp [decodeCore] at h
  | succ n ih =>
    intro bytes st e h
    cases bytes with
    | nil =>
      left
      simp only [decodeCore, Except.error.injEq] at h
      exact h.symm
    | cons b rest =>
      by_cases hb : 128 ≤ b
      · rw [decodeCore_cont hb] at h
        exact ih rest _ e h
      · cases hcs : st.constructing with
        | true =>
          by_cases hov : st.pos + foldPtr st.acc b < U64
          · rw [decodeCore_group_close hb hcs hov] at h
            exact ih rest _ e h
          · rw [decodeCore_group_overflow hb hcs hov] at h
            right
            refine ⟨st.pos, foldPtr st.acc b, ?_⟩
            simp only [Except.error.injEq] at h
            exact h.symm
        | false =>
          by_cases hb0 : b = 0
          · subst hb0
            rw [decodeCore_break hcs] at h
            simp at h
          · by_cases hov : st.pos + b < U64
            · rw [decodeCore_single hb hb0 hcs hov] at h
              exact ih rest _ e h
            · rw [decodeCore_single_overflow hb hb0 hcs hov] at h
              right
              refine ⟨st.pos, b, ?_⟩
              simp only [Except.error.injEq] at h
              exact h.symm

/-- The decoding loop reads at most its loop bound, and at most the bytes
that exist. -/
theorem decodeCore_consumed_le :
    ∀ (fuel : Nat) (bytes : List Nat) (st : DecState),
    (decodeCore fuel bytes st).2 ≤ fuel ∧ (decodeCore fuel bytes st).2 ≤ bytes.length := by
  intro fuel
  induction fuel with
  | zero => intro bytes st; exact ⟨le_rfl, Nat.zero_le _⟩
  | succ n ih =>
    intro bytes st
    cases bytes with
    | nil => exact ⟨Nat.zero_le _, le_rfl⟩
    | cons b rest =>
      by_cases hb : 128 ≤ b
      · rw [decodeCore_cont hb]
        obtain ⟨h1, h2⟩ := ih rest ⟨true, foldPtr st.acc b, st.pos, st.out⟩
        exact ⟨Nat.succ_le_succ h1, Nat.succ_le_succ h2⟩
      · cases hcs : st.constructing with
        | true =>
          by_cases hov : st.pos + foldPtr st.acc b < U64
          · rw [decodeCore_group_close hb hcs hov]
            obtain ⟨h1, h2⟩ := ih rest _
            exact ⟨Nat.succ_le_succ h1, Nat.succ_le_succ h2⟩
          · rw [decodeCore_group_overflow hb hcs hov]
            exact ⟨Nat.succ_le_succ (Nat.zero_le n), Nat.succ_le_succ (Nat.zero_le _)⟩
        | false =>
          by_cases hb0 : b = 0
          · subst hb0
            rw [decodeCore_break hcs]
            exact ⟨Nat.succ_le_succ (Nat.zero_le n), Nat.succ_le_succ (Nat.zero_le _)⟩
          · by_cases hov : st.pos + b < U64
            · rw [decodeCore_single hb hb0 hcs hov]
              obtain ⟨h1, h2⟩ := ih rest _
              exact ⟨Nat.succ_le_succ h1, Nat.succ_le_succ h2⟩
            · rw [decodeCore_single_overflow hb hb0 hcs hov]
              exact ⟨Nat.succ_le_succ (Nat.zero_le n), Nat.succ_le_succ (Nat.zero_le _)⟩

/-- The encoder never panics: the raw `u8` addition of the continuation
bit is applied only to base-128 digits, which are `< 128`. -/
theorem write_sir0_footer_go_isSome :
    ∀ (l : List Nat) (latest : Nat), (write_sir0_footer_go latest l).isSome = true := by
  intro l
  induction l with
  | nil => intro latest; rfl
  | cons p rest ih =>
    intro latest
    rw [write_sir0_footer_go]
    by_cases h1 : p < latest
    · simp [h1]
    · rw [if_neg h1]
      by_cases h2 : p - latest = 0
      · simpa [h2] using ih p
      · simp only [if_neg h2]
        rw [emitList_toDigits]
        have hgo := ih p
        cases hx : write_sir0_footer_go p rest with
        | none => rw [hx] at hgo; simp at hgo
        | some x => cases x <;> simp

/-- C2: for arbitrary byte input the model never reaches a panic: the
encoder (whose raw `u8` addition is the only potentially panicking
operation in the two functions, modelled as `none`) always returns a value
— a success or one of the typed errors — for every input list, and the
decoding loop never reads more bytes than its declared budget
(`remaining_bytes`) nor more than the stream holds.  `Sir0::new` and the
decoding loop contain only checked or explicitly wrapping arithmetic, so
they are embedded as total functions into `Except Sir0Error _`. -/
theorem sir0_total_and_bounded :
    (∀ list : List Nat, (write_sir0_footer list).isSome = true) ∧
    (∀ (fuel : Nat) (bytes : List Nat) (st : DecState),
      (decodeCore fuel bytes st).2 ≤ fuel ∧
      (decodeCore fuel bytes st).2 ≤ bytes.length) :=
  ⟨fun l => write_sir0_footer_go_isSome l 0, decodeCore_consumed_le⟩

/-- C3 counterexample: ten bytes `0xFF × 9, 0x7F` make the accumulator
shift overflow 64 bits (after nine bytes the accumulator is `2 ^ 63 - 1`,
and `(2 ^ 63 - 1) * 128 ≥ 2 ^ 64`), yet the decoder returns success (the
wrapped value `2 ^ 64 - 1`) instead of a typed error: the shift is
`overflowing_shl`, not a checked shift. -/
theorem decode_shift_wraps_without_error :
    2 ^ 64 ≤ (2 ^ 63 - 1) * 128 ∧
    (decodeCore 10 (List.replicate 9 255 ++ [127]) initState).1 =
      Except.ok [2 ^ 64 - 1] := by decide

/-- C3 amended: the accumulator fold uses a *wrapping* shift
(`overflowing_shl`), silently discarding high bits; no typed error exists
for accumulator overflow — the only decoder errors are the transport error
and the checked addition's `AbsolutePointerOverflow`. -/
theorem decode_errors_are_io_or_add_overflow (fuel : Nat) (bytes : List Nat)
    (st : DecState) (e : Sir0Error)
    (h : (decodeCore fuel bytes st).1 = Except.error e) :
    e = Sir0Error.IOError ∨ ∃ p d, e = Sir0Error.AbsolutePointerOverflow p d :=
  decodeCore_error_shape fuel bytes st e h

/-- C3 witness: the error-shape theorem applied at a concrete erroring
input (reading past the end of the stream). -/
theorem decode_errors_are_io_or_add_overflow_witness :
    (decodeCore 1 [] initState).1 = Except.error Sir0Error.IOError ∧
    (Sir0Error.IOError = Sir0Error.IOError ∨
      ∃ p d, Sir0Error.IOError = Sir0Error.AbsolutePointerOverflow p d) :=
  ⟨rfl, decode_errors_are_io_or_add_overflow 1 [] initState Sir0Error.IOError rfl⟩

/-- C7: whatever follows and whatever the byte budget, a leading
standalone `0x00` byte (the decoder starts with `is_constructing = false`)
makes the decoding loop stop at once with success and an empty offset
sequence — it consumes at most that one byte and is never an error. -/
theorem leading_zero_decodes_empty (rest : List Nat) (fuel : Nat) :
    (decodeCore fuel (0 :: rest) initState).1 = Except.ok [] ∧
    (decodeCore fuel (0 :: rest) initState).2 ≤ 1 := by
  cases fuel with
  | zero => exact ⟨rfl, Nat.zero_le 1⟩
  | succ n =>
    rw [decodeCore_break rfl]
    exact ⟨rfl, le_rfl⟩

/-! ### Encoder error behaviour (NotSorted) -/

/-- Whenever a position is smaller than the immediately preceding one, the
encoder's `checked_sub` fails at the first such pair and the whole call
returns `NotSorted(offending, previous)` with `offending < previous`. -/
theorem footer_go_not_sorted :
    ∀ (l : List Nat) (latest : Nat), ¬ List.Chain (· ≤ ·) latest l →
    ∃ p q, write_sir0_footer_go latest l =
      some (Except.error (Sir0WriteFooterError.NotSorted p q)) ∧ p < q := by
  intro l
  induction l with
  | nil => intro latest h; exact absurd List.Chain.nil h
  | cons p rest ih =>
    intro latest h
    rw [List.chain_cons] at h
    push_neg at h
    by_cases h1 : p < latest
    · exact ⟨p, latest, by rw [write_sir0_footer_go, if_pos h1], h1⟩
    · have hle : latest ≤ p := by omega
      obtain ⟨a, b, hab, hlt⟩ := ih p (h hle)
      rw [write_sir0_footer_go, if_neg h1]
      by_cases h2 : p - latest = 0
      · exact ⟨a, b, by simp only [if_pos h2]; exact hab, hlt⟩
      · refine ⟨a, b, ?_, hlt⟩
        simp only [if_neg h2]
        rw [emitList_toDigits, hab]

/-- C6 amended: any input list that is not non-decreasing makes
`write_sir0_footer` fail with `NotSorted(p, q)` where `p < q` (`p` the
offending position, `q` the previously written one); in particular
`[8, 4]` fails with `NotSorted(4, 8)` — the error cites the pair in the
order (offending, previous) = (4, 8), not (8, 4) as the claim stated. -/
theorem footer_not_sorted_error :
    (∀ list : List Nat, ¬ List.Chain (· ≤ ·) 0 list →
      ∃ p q, write_sir0_footer list =
        some (Except.error (Sir0WriteFooterError.NotSorted p q)) ∧ p < q) ∧
    write_sir0_footer [8, 4] =
      some (Except.error (Sir0WriteFooterError.NotSorted 4 8)) := by
  constructor
  · intro l h
    exact footer_go_not_sorted l 0 h
  · decide

/-- C6 counterexample: encoding `[8, 4]` yields `NotSorted 4 8`, which is
not the `NotSorted 8 4` the claim announces. -/
theorem notSorted_args_order :
    write_sir0_footer [8, 4] =
      some (Except.error (Sir0WriteFooterError.NotSorted 4 8)) ∧
    Sir0WriteFooterError.NotSorted 4 8 ≠ Sir0WriteFooterError.NotSorted 8 4 := by
  decide

/-- C6 witness: the amended theorem applied at the concrete list `[8, 4]`. -/
theorem footer_not_sorted_error_witness :
    ¬ List.Chain (· ≤ ·) 0 [8, 4] ∧
    ∃ p q, write_sir0_footer [8, 4] =
      some (Except.error (Sir0WriteFooterError.NotSorted p q)) ∧ p < q :=
  ⟨by norm_num [List.chain_cons], footer_not_sorted_error.1 [8, 4]
    (by norm_num [List.chain_cons])⟩

/-! ### No premature terminator in encoder output -/

theorem chain_of_all_ge {l : List Nat} (hl : ∀ x ∈ l, 128 ≤ x) :
    List.Chain' (fun a b => b = 0 → 128 ≤ a) l := by
  induction l with
  | nil => exact List.chain'_nil
  | cons a l ih =>
    cases l with
    | nil => exact List.chain'_singleton a
    | cons b t =>
      rw [List.chain'_cons]
      refine ⟨fun hb => ?_, ih (fun x hx => hl x (by simp [hx]))⟩
      have := hl b (by simp)
      omega

/-- The bytes of a single emitted group: nonempty, first byte nonzero, and
any zero byte inside is preceded by a continuation byte. -/
theorem groupBytes_guarded (d : Nat) (hd : 1 ≤ d) :
    (∀ x, (groupBytes d).head? = some x → x ≠ 0) ∧
    List.Chain' (fun a b => b = 0 → 128 ≤ a) (groupBytes d) := by
  by_cases h : d < 128
  · rw [groupBytes, if_pos h]
    refine ⟨?_, List.chain'_singleton d⟩
    intro x hx
    simp at hx
    omega
  · rw [groupBytes, if_neg h]
    have hge := contBytes_ge (d / 128)
    have hne := contBytes_ne_nil (d / 128)
    obtain ⟨a, t, hat⟩ := List.exists_cons_of_ne_nil hne
    constructor
    · intro x hx
      rw [hat] at hx
      simp only [List.cons_append, List.head?_cons, Option.some.injEq] at hx
      have := hge a (by rw [hat]; simp)
      omega
    · rw [List.chain'_append]
      refine ⟨chain_of_all_ge hge, List.chain'_singleton _, ?_⟩
      intro x hx y hy hy0
      exact hge x (List.mem_of_getLast?_eq_some hx)

/-- Concatenating guarded blocks stays guarded. -/
theorem footer_go_zeroes_guarded :
    ∀ (l : List Nat) (latest : Nat) (B : List Nat),
    write_sir0_footer_go latest l = some (Except.ok B) →
    (∀ x, B.head? = some x → x ≠ 0) ∧
    List.Chain' (fun a b => b = 0 → 128 ≤ a) B := by
  intro l
  induction l with
  | nil =>
    intro latest B h
    have hB : B = [] := by
      simpa [write_sir0_footer_go] using h.symm
    subst hB
    exact ⟨fun x hx => by simp at hx, List.chain'_nil⟩
  | cons p rest ih =>
    intro latest B h
    rw [write_sir0_footer_go] at h
    by_cases h1 : p < latest
    · rw [if_pos h1] at h
      simp at h
    · rw [if_neg h1] at h
      by_cases h2 : p - latest = 0
      · simp only [if_pos h2] at h
        exact ih p B h
      · simp only [if_neg h2] at h
        rw [emitList_toDigits] at h
        cases hx : write_sir0_footer_go p rest with
        | none => rw [hx] at h; simp at h
        | some x =>
          cases x with
          | error e => rw [hx] at h; simp at h
          | ok bs =>
            rw [hx] at h
            simp only [Option.some.injEq, Except.ok.injEq] at h
            subst h
            obtain ⟨hhd, hch⟩ := ih p bs hx
            obtain ⟨ghd, gch⟩ := groupBytes_guarded (p - latest) (by omega)
            constructor
            · intro y hy
              obtain ⟨a, t, hat⟩ :
                  ∃ a t, groupBytes (p - latest) = a :: t := by
                cases hg : groupBytes (p - latest) with
                | nil =>
                  exact absurd hg (by
                    rw [groupBytes]
                    by_cases hlt : p - latest < 128 <;>
                      simp [hlt, contBytes_ne_nil])
                | cons a t => exact ⟨a, t, rfl⟩
              rw [hat] at hy
              simp only [List.cons_append, List.head?_cons, Option.some.injEq] at hy
              exact hy ▸ ghd a (by rw [hat]; rfl)
            · rw [List.chain'_append]
              refine ⟨gch, hch, ?_⟩
              intro x hx' y hy' hy0
              exact absurd hy0 (hhd y hy')

/-- C10: in every byte run emitted by `write_sir0_footer`, a `0x00` byte
never appears first and is always immediately preceded by a byte with the
continuation (high) bit set, so the decoder's `is_constructing` flag is
set at every zero byte: the output never contains a premature table
terminator. -/
theorem footer_zeroes_guarded (list B : List Nat)
    (h : write_sir0_footer list = some (Except.ok B)) :
    (∀ x, B.head? = some x → x ≠ 0) ∧
    List.Chain' (fun a b => b = 0 → 128 ≤ a) B :=
  footer_go_zeroes_guarded list 0 B h

/-- C10 witness: `[128]` encodes to `[0x81, 0x00]`, whose zero byte is
preceded by the continuation byte `0x81`. -/
theorem footer_zeroes_guarded_witness :
    write_sir0_footer [128] = some (Except.ok [129, 0]) ∧
    ((∀ x, ([129, 0] : List Nat).head? = some x → x ≠ 0) ∧
      List.Chain' (fun a b => b = 0 → 128 ≤ a) [129, 0]) :=
  ⟨by decide, footer_zeroes_guarded [128] [129, 0] (by decide)⟩

/-! ### Monotonicity of decoded offsets -/

theorem chain_snoc_step {l : List Nat} {a b : Nat}
    (h : List.Chain' (· ≤ ·) (l ++ [a])) (hab : a ≤ b) :
    List.Chain' (· ≤ ·) ((l ++ [b]) ++ [b]) := by
  rw [List.chain'_append] at h ⊢
  obtain ⟨h1, _, h3⟩ := h
  refine ⟨?_, List.chain'_singleton b, ?_⟩
  · rw [List.chain'_append]
    refine ⟨h1, List.chain'_singleton b, ?_⟩
    intro x hx y hy
    simp only [List.head?_cons, Option.mem_def, Option.some.injEq] at hy
    have := h3 x hx a (by simp)
    omega
  · intro x hx y hy
    simp only [List.getLast?_concat, Option.mem_def, Option.some.injEq] at hx
    simp only [List.head?_cons, Option.mem_def, Option.some.injEq] at hy
    omega

/-- Every absolute position appended by the decoding loop is the previous
running position plus a non-negative delta, so any successful outcome is a
non-decreasing list (invariant: the output so far, extended with the
current position, is a non-decreasing chain). -/
theorem decode_chain :
    ∀ (fuel : Nat) (bytes : List Nat) (st : DecState) (l : List Nat),
    (decodeCore fuel bytes st).1 = Except.ok l →
    List.Chain' (· ≤ ·) (st.out ++ [st.pos]) →
    List.Chain' (· ≤ ·) l := by
  intro fuel
  induction fuel with
  | zero =>
    intro bytes st l h hinv
    have : st.out = l := by simpa [decodeCore] using h
    exact this ▸ List.Chain'.left_of_append hinv
  | succ n ih =>
    intro bytes st l h hinv
    cases bytes with
    | nil => simp [decodeCore] at h
    | cons b rest =>
      by_cases hb : 128 ≤ b
      · rw [decodeCore_cont hb] at h
        exact ih rest _ l h hinv
      · cases hcs : st.constructing with
        | true =>
          by_cases hov : st.pos + foldPtr st.acc b < U64
          · rw [decodeCore_group_close hb hcs hov] at h
            exact ih rest _ l h (chain_snoc_step hinv (Nat.le_add_right _ _))
          · rw [decodeCore_group_overflow hb hcs hov] at h
            simp at h
        | false =>
          by_cases hb0 : b = 0
          · subst hb0
            rw [decodeCore_break hcs] at h
            have : st.out = l := by simpa using h
            exact this ▸ List.Chain'.left_of_append hinv
          · by_cases hov : st.pos + b < U64
            · rw [decodeCore_single hb hb0 hcs hov] at h
              exact ih rest _ l h (chain_snoc_step hinv (Nat.le_add_right _ _))
            · rw [decodeCore_single_overflow hb hb0 hcs hov] at h
              simp at h

/-- C9: every container successfully constructed by `Sir0::new` has a
non-decreasing `offsets` sequence — each decoded absolute position is the
previous running position plus a non-negative delta. -/
theorem offsets_nondecreasing (data : List Nat) (s : Sir0)
    (h : sir0_new data = Except.ok s) : List.Chain' (· ≤ ·) s.offsets := by
  rw [sir0_new] at h
  split at h
  · simp at h
  · split at h
    · simp at h
    · split at h
      case h_2 => simp at h
      case h_1 =>
        split at h
        · simp at h
        · split at h
          · simp at h
          · split at h
            · split at h
              · simp at h
              · rename_i offs hofs
                have hs : s.offsets = offs := by
                  cases h
                  rfl
                rw [hs]
                exact decode_chain _ _ _ offs hofs (List.chain'_singleton 0)
            · simp at h

/-- C9 witness: a concrete well-formed file whose table decodes to `[4]`. -/
theorem offsets_nondecreasing_witness :
    sir0_new [83, 73, 82, 48, 12, 0, 0, 0, 12, 0, 0, 0, 4, 0] =
      Except.ok ⟨[4], []⟩ ∧
    List.Chain' (· ≤ ·) (Sir0.mk [4] []).offsets :=
  ⟨by decide, offsets_nondecreasing [83, 73, 82, 48, 12, 0, 0, 0, 12, 0, 0, 0, 4, 0]
    ⟨[4], []⟩ (by decide)⟩

/-! ### Header-field validation -/

theorem readU32LE_le {data : List Nat} {i v : Nat} (h : readU32LE data i = some v) :
    i + 4 ≤ data.length := by
  rw [readU32LE] at h
  split at h
  · assumption
  · simp at h

/-- C5 amended: a byte string shorter than 4 bytes makes `Sir0::new` fail
with the propagated *transport* error (`read_exact` hits end of stream), not
with `InvalidMagic`; a byte string of length ≥ 4 whose first 4 bytes differ
from `SIR0` fails with `InvalidMagic` carrying the 4 bytes found.  Neither
case panics (the embedding is total). -/
theorem magic_rejection (data : List Nat) :
    (data.length < 4 → sir0_new data = Except.error Sir0Error.IOError) ∧
    (4 ≤ data.length → data.take 4 ≠ magicBytes →
      sir0_new data = Except.error (Sir0Error.InvalidMagic (data.take 4))) := by
  constructor
  · intro h
    rw [sir0_new, if_pos h]
  · intro h1 h2
    rw [sir0_new, if_neg (by omega), if_pos h2]

/-- C5 counterexample: the empty byte string (length < 4) does *not* fail
with `InvalidMagic`; it fails with the propagated IO error of the failed
4-byte `read_exact`. -/
theorem short_input_gives_io_error_not_magic :
    sir0_new [] = Except.error Sir0Error.IOError ∧
    resultIsInvalidMagic (sir0_new []) = false := by decide

/-- C5 witness: the amended theorem applied to the short input `[1, 2, 3]`
and to the 4-byte non-magic input `[0, 0, 0, 0]`. -/
theorem magic_rejection_witness :
    sir0_new [1, 2, 3] = Except.error Sir0Error.IOError ∧
    sir0_new [0, 0, 0, 0] = Except.error (Sir0Error.InvalidMagic [0, 0, 0, 0]) :=
  ⟨(magic_rejection [1, 2, 3]).1 (by decide),
    by
      have h := (magic_rejection [0, 0, 0, 0]).2 (by decide) (by decide)
      simpa using h⟩

/-- C8: with valid magic and both 32-bit fields readable, a
`header_offset` strictly greater than `pointer_table_offset` makes
`Sir0::new` fail with `PointerBeforeHeader(header_offset, pointer_offset)`
— the `checked_sub` of the header length turns the underflow into this
typed error. -/
theorem pointer_before_header_check (data : List Nat) (ho po : Nat)
    (hm : data.take 4 = magicBytes)
    (h4 : readU32LE data 4 = some ho) (h8 : readU32LE data 8 = some po)
    (hlt : po < ho) :
    sir0_new data = Except.error (Sir0Error.PointerBeforeHeader ho po) := by
  have hlen := readU32LE_le h4
  rw [sir0_new, if_neg (by omega), if_neg (by simp [hm])]
  simp only [h4, h8]
  rw [if_pos hlt]

/-- C8 witness: `header_offset = 1 > pointer_offset = 0`. -/
theorem pointer_before_header_check_witness :
    sir0_new [83, 73, 82, 48, 1, 0, 0, 0, 0, 0, 0, 0] =
      Except.error (Sir0Error.PointerBeforeHeader 1 0) :=
  pointer_before_header_check [83, 73, 82, 48, 1, 0, 0, 0, 0, 0, 0, 0] 1 0
    (by decide) (by decide) (by decide) (by decide)

/-- C4 amended: after magic, field and header-clone checks pass, the
`remaining_bytes` computation fails with
`PointerOffsetPostOrAtFileEnd(pointer_offset, file_length)` exactly when
`pointer_offset ≥ file_length`; at `pointer_offset = file_length - 1` (the
boundary the claim includes) the check *passes* with `remaining = 0` and
parsing succeeds with an empty table instead. -/
theorem pointer_offset_end_check (data : List Nat) (ho po : Nat)
    (hm : data.take 4 = magicBytes)
    (h4 : readU32LE data 4 = some ho) (h8 : readU32LE data 8 = some po)
    (hhp : ho ≤ po) (hcl : po ≤ data.length) :
    (po = data.length →
      sir0_new data =
        Except.error (Sir0Error.PointerOffsetPostOrAtFileEnd po data.length)) ∧
    (po < data.length →
      ∀ a b, sir0_new data ≠
        Except.error (Sir0Error.PointerOffsetPostOrAtFileEnd a b)) := by
  have hlen := readU32LE_le h4
  have hclone : clone_into_vec data ho (po - ho) =
      some ((data.drop ho).take (po - ho)) := by
    rw [clone_into_vec, if_pos (by omega)]
  constructor
  · intro hE
    rw [sir0_new, if_neg (by omega), if_neg (by simp [hm])]
    simp only [h4, h8, hclone]
    rw [if_neg (by omega), if_neg (by omega)]
  · intro hlt a b hcontra
    rw [sir0_new, if_neg (by omega), if_neg (by simp [hm])] at hcontra
    simp only [h4, h8, hclone] at hcontra
    rw [if_neg (by omega), if_pos (by omega)] at hcontra
    cases hd : (decodeCore (data.length - po - 1) (data.drop po) initState).1 with
    | error e =>
      rw [hd] at hcontra
      simp only [Except.error.injEq] at hcontra
      rcases decodeCore_error_shape _ _ _ e hd with h1 | ⟨p, d, h2⟩
      · rw [h1] at hcontra
        exact Sir0Error.noConfusion hcontra
      · rw [h2] at hcontra
        exact Sir0Error.noConfusion hcontra
    | ok offs =>
      rw [hd] at hcontra
      exact Except.noConfusion hcontra

/-- C4 counterexample: a 13-byte file with `pointer_offset = 12 =
file_length - 1` parses *successfully* (empty pointer table), while the
claim demands the `PointerOffsetPostOrAtFileEnd` error at
`file_length - 1`. -/
theorem pointer_at_len_minus_one_succeeds :
    ([83, 73, 82, 48, 12, 0, 0, 0, 12, 0, 0, 0, 0] : List Nat).length = 13 ∧
    readU32LE [83, 73, 82, 48, 12, 0, 0, 0, 12, 0, 0, 0, 0] 8 = some 12 ∧
    sir0_new [83, 73, 82, 48, 12, 0, 0, 0, 12, 0, 0, 0, 0] =
      Except.ok ⟨[], []⟩ := by decide

/-- C4 witness: at `pointer_offset = 12 = file_length` the amended theorem
yields the `PointerOffsetPostOrAtFileEnd` error. -/
theorem pointer_offset_end_check_witness :
    sir0_new [83, 73, 82, 48, 12, 0, 0, 0, 12, 0, 0, 0] =
      Except.error (Sir0Error.PointerOffsetPostOrAtFileEnd 12 12) :=
  (pointer_offset_end_check [83, 73, 82, 48, 12, 0, 0, 0, 12, 0, 0, 0] 12 12
    (by decide) (by decide) (by decide) (by decide) (by decide)).1 (by decide)

-- Sanity checks from the spec's §8 examples.
example : write_sir0_footer [4, 8] = some (Except.ok [4, 4]) := by decide
example : write_sir0_footer [130] = some (Except.ok [129, 2]) := by decide
example : (decodeCore 2 [129, 2] initState).1 = Except.ok [130] := by decide
example : sir0_new [83, 73, 82, 48, 12, 0, 0, 0, 12, 0, 0, 0, 4, 0] =
    Except.ok ⟨[4], []⟩ := by decide
